import Mathlib

/-!
A verification development of the `cdj350battler` export pipeline
(`cdj350battler.py`): romanization and sanitization of filename stems
(`to_romaji`), position-prefixed filename generation, directory
scaffolding (`prepare_output_directory`), playlist lookup
(`get_playlist_by_name`) and the per-track copy loop of
`export_playlist`.

Python strings are modelled as `List Char`; the filesystem as a record
of directory paths and an association list from file paths to file
data; the Rekordbox catalog as a structure supplying playlists,
playlist entries and tracks.  Paths are taken in simple POSIX form
(components joined by a single slash).
-/

namespace Battler

/-- The decimal digit characters: `'0'` for 0 through `'9'` for 9. -/
def digitChar (d : Nat) : Char := Char.ofNat (48 + d)

/-- Little-endian decimal digits of `n`, with explicit fuel so the
definition reduces computationally; `toDigitsRev n n` agrees with
`Nat.digits 10 n`. -/
def toDigitsRev : Nat → Nat → List Nat
  | 0, _ => []
  | fuel + 1, n => if n = 0 then [] else n % 10 :: toDigitsRev fuel (n / 10)

/-- Python `str(n)` for a natural number: the decimal rendering, most
significant digit first, with `"0"` for 0. -/
def pyStr (n : Nat) : List Char :=
  if n = 0 then [digitChar 0] else ((toDigitsRev n n).reverse).map digitChar

/-- Python `str.zfill w` on an unsigned digit string: left-pad with `'0'`
to width `w`; a string already at least `w` long is returned unchanged. -/
def zfill (w : Nat) (s : List Char) : List Char :=
  List.replicate (w - s.length) (digitChar 0) ++ s

/-- Python `str.isalnum` on a single character: true on the Unicode
alphanumeric categories.  Modelled exactly over ASCII and the Latin-1
block, and over the Japanese ranges this tool meets (kana, the CJK
unified ideographs, the iteration and prolonged-sound marks); other
code points are taken as non-alphanumeric. -/
def pyIsAlnum (c : Char) : Bool :=
  decide ((48 ≤ c.toNat ∧ c.toNat ≤ 57) ∨ (65 ≤ c.toNat ∧ c.toNat ≤ 90) ∨
    (97 ≤ c.toNat ∧ c.toNat ≤ 122) ∨
    c.toNat = 170 ∨ c.toNat = 181 ∨ c.toNat = 185 ∨ c.toNat = 186 ∨
    (178 ≤ c.toNat ∧ c.toNat ≤ 179) ∨ (188 ≤ c.toNat ∧ c.toNat ≤ 190) ∨
    (192 ≤ c.toNat ∧ c.toNat ≤ 214) ∨ (216 ≤ c.toNat ∧ c.toNat ≤ 246) ∨
    (248 ≤ c.toNat ∧ c.toNat ≤ 255) ∨
    c.toNat = 0x3005 ∨ (0x3041 ≤ c.toNat ∧ c.toNat ≤ 0x3096) ∨
    (0x30A1 ≤ c.toNat ∧ c.toNat ≤ 0x30FA) ∨ c.toNat = 0x30FC ∨
    (0x4E00 ≤ c.toNat ∧ c.toNat ≤ 0x9FFF))

/-- Modelled from the spec: `pykakasi.kakasi().convert` is an external
library, not code of this repository.  Per the spec, Japanese segments
are rendered in Hepburn romanization while Latin-script segments pass
through unchanged; this model renders a representative per-character
table of hiragana and passes every other character through unchanged. -/
def kakasiHepburnChar (c : Char) : List Char :=
  match c with
  | 'あ' => ['a'] | 'い' => ['i'] | 'う' => ['u'] | 'え' => ['e'] | 'お' => ['o']
  | 'か' => ['k', 'a'] | 'き' => ['k', 'i'] | 'く' => ['k', 'u']
  | 'け' => ['k', 'e'] | 'こ' => ['k', 'o']
  | 'さ' => ['s', 'a'] | 'し' => ['s', 'h', 'i'] | 'す' => ['s', 'u']
  | 'せ' => ['s', 'e'] | 'そ' => ['s', 'o']
  | 'た' => ['t', 'a'] | 'ち' => ['c', 'h', 'i'] | 'つ' => ['t', 's', 'u']
  | 'て' => ['t', 'e'] | 'と' => ['t', 'o']
  | 'な' => ['n', 'a'] | 'に' => ['n', 'i'] | 'ぬ' => ['n', 'u']
  | 'ね' => ['n', 'e'] | 'の' => ['n', 'o']
  | 'は' => ['h', 'a'] | 'ひ' => ['h', 'i'] | 'ふ' => ['f', 'u']
  | 'へ' => ['h', 'e'] | 'ほ' => ['h', 'o']
  | 'ま' => ['m', 'a'] | 'み' => ['m', 'i'] | 'む' => ['m', 'u']
  | 'め' => ['m', 'e'] | 'も' => ['m', 'o']
  | 'や' => ['y', 'a'] | 'ゆ' => ['y', 'u'] | 'よ' => ['y', 'o']
  | 'ら' => ['r', 'a'] | 'り' => ['r', 'i'] | 'る' => ['r', 'u']
  | 'れ' => ['r', 'e'] | 'ろ' => ['r', 'o']
  | 'わ' => ['w', 'a'] | 'を' => ['w', 'o'] | 'ん' => ['n']
  | _ => [c]

/-- Modelled from the spec: string-level `kakasi.convert` followed by the
join of the per-segment `hepburn` fields, as in line 77 of the source. -/
def kakasiConvert (s : List Char) : List Char :=
  (s.map kakasiHepburnChar).flatten

/-- One character of `romaji.replace(" ", "_")` (line 79). -/
def replaceSpace (c : Char) : Char := if c = ' ' then '_' else c

/-- One character of the sanitization pass (line 81): keep `c` when
Python's `c.isalnum()` holds or `c` is one of `_`, `-`, `.`;
otherwise replace it by `'_'`. -/
def sanitizeChar (c : Char) : Char :=
  if pyIsAlnum c || c = '_' || c = '-' || c = '.' then c else '_'

/-- `Cdj350Battler.to_romaji` (lines 74-82): Hepburn romanization via
kakasi, spaces to underscores, then the character sanitization pass. -/
def to_romaji (text : List Char) : List Char :=
  ((kakasiConvert text).map replaceSpace).map sanitizeChar

/-- Membership in the character class `[A-Za-z0-9_.-]` that the spec
promises for romanized output. -/
def allowedChar (c : Char) : Bool :=
  decide ((48 ≤ c.toNat ∧ c.toNat ≤ 57) ∨ (65 ≤ c.toNat ∧ c.toNat ≤ 90) ∨
    (97 ≤ c.toNat ∧ c.toNat ≤ 122) ∨ c = '_' ∨ c = '-' ∨ c = '.')

/-- The destination filename built in `export_playlist` (lines 138-146)
for the track at zero-based `position`: `str(position+1).zfill(3)`, an
underscore, the romanized stem, then the path suffix verbatim. -/
def mkFilename (position : Nat) (stem ext : List Char) : List Char :=
  zfill 3 (pyStr (position + 1)) ++ '_' :: (to_romaji stem ++ ext)

/-! ### Decimal strings: values, lengths, lexicographic order -/

/-- Test for a decimal digit character. -/
def isDigitCh (c : Char) : Bool := decide (48 ≤ c.toNat ∧ c.toNat ≤ 57)

/-- Numeric value of a digit character. -/
def charVal (c : Char) : Nat := c.toNat - 48

/-- Value of a digit string read most significant digit first. -/
def valD (s : List Char) : Nat := s.foldl (fun a c => 10 * a + charVal c) 0

lemma toDigitsRev_eq_digits : ∀ fuel n, n ≤ fuel → toDigitsRev fuel n = Nat.digits 10 n := by
  intro fuel
  induction fuel with
  | zero => intro n hn; interval_cases n; simp [toDigitsRev]
  | succ f ih =>
    intro n hn
    by_cases h0 : n = 0
    · simp [toDigitsRev, h0]
    · rw [toDigitsRev, if_neg h0, Nat.digits_def' (by norm_num : (1:Nat) < 10) (Nat.pos_of_ne_zero h0),
        ih (n / 10)]
      have : n / 10 < n := Nat.div_lt_self (Nat.pos_of_ne_zero h0) (by norm_num)
      omega

lemma pyStr_eq_digits (n : Nat) (h : 0 < n) :
    pyStr n = ((Nat.digits 10 n).reverse).map digitChar := by
  rw [pyStr, if_neg (Nat.pos_iff_ne_zero.mp h), toDigitsRev_eq_digits n n le_rfl]

lemma charVal_digitChar (d : Nat) (h : d < 10) : charVal (digitChar d) = d := by
  interval_cases d <;> decide

lemma isDigitCh_digitChar (d : Nat) (h : d < 10) : isDigitCh (digitChar d) = true := by
  interval_cases d <;> decide

lemma foldl_val (s : List Char) : ∀ a : Nat,
    s.foldl (fun x c => 10 * x + charVal c) a = a * 10 ^ s.length + valD s := by
  induction s with
  | nil => intro a; simp [valD]
  | cons c s ih =>
    intro a
    have hc : valD (c :: s) = charVal c * 10 ^ s.length + valD s := by
      show List.foldl _ (10 * 0 + charVal c) s = _
      rw [ih (10 * 0 + charVal c)]; ring_nf
    rw [List.foldl_cons, ih (10 * a + charVal c), hc]
    simp [List.length_cons, pow_succ]; ring

lemma valD_cons (c : Char) (s : List Char) :
    valD (c :: s) = charVal c * 10 ^ s.length + valD s := by
  show List.foldl _ (10 * 0 + charVal c) s = _
  rw [foldl_val s (10 * 0 + charVal c)]; ring_nf

lemma valD_append_singleton (s : List Char) (c : Char) :
    valD (s ++ [c]) = 10 * valD s + charVal c := by
  simp [valD, List.foldl_append]

lemma valD_digits : ∀ l : List Nat, (∀ d ∈ l, d < 10) →
    valD ((l.reverse).map digitChar) = Nat.ofDigits 10 l := by
  intro l
  induction l with
  | nil => intro _; simp [valD]
  | cons d l ih =>
    intro hd
    rw [List.reverse_cons, List.map_append, List.map_singleton, valD_append_singleton,
      ih (fun x hx => hd x (List.mem_cons_of_mem d hx)), Nat.ofDigits_cons,
      charVal_digitChar d (hd d (List.mem_cons_self d l))]
    ring

lemma valD_pyStr (n : Nat) : valD (pyStr n) = n := by
  by_cases h0 : n = 0
  · subst h0; decide
  · rw [pyStr_eq_digits n (Nat.pos_of_ne_zero h0),
      valD_digits _ (fun d hd => Nat.digits_lt_base (by norm_num) hd),
      Nat.ofDigits_digits]

lemma valD_replicate_zero (k : Nat) (s : List Char) :
    valD (List.replicate k (digitChar 0) ++ s) = valD s := by
  induction k with
  | zero => simp
  | succ m ih =>
    rw [List.replicate_succ, List.cons_append, valD_cons,
      charVal_digitChar 0 (by norm_num), ih]
    ring

lemma valD_zfill (w : Nat) (s : List Char) : valD (zfill w s) = valD s :=
  valD_replicate_zero _ s

lemma pyStr_length_le (n : Nat) (h : n ≤ 999) : (pyStr n).length ≤ 3 := by
  by_cases h0 : n = 0
  · subst h0; decide
  · rw [pyStr_eq_digits n (Nat.pos_of_ne_zero h0)]
    simp only [List.length_map, List.length_reverse]
    rw [Nat.digits_len 10 n (by norm_num) h0]
    have : n < 10 ^ 3 := by omega
    have := (Nat.lt_pow_iff_log_lt (by norm_num : (1:Nat) < 10) h0).mp this
    omega

lemma pyStr_length_ge_of_ge (n : Nat) (h : 1000 ≤ n) : 4 ≤ (pyStr n).length := by
  have h0 : n ≠ 0 := by omega
  rw [pyStr_eq_digits n (by omega)]
  simp only [List.length_map, List.length_reverse]
  by_contra hlt
  have hlen : (Nat.digits 10 n).length ≤ 3 := by omega
  have := Nat.lt_base_pow_length_digits (b := 10) (m := n) (by norm_num)
  have : n < 10 ^ 3 := lt_of_lt_of_le this (Nat.pow_le_pow_right (by norm_num) hlen)
  omega

lemma zfill_length (s : List Char) (h : s.length ≤ 3) : (zfill 3 s).length = 3 := by
  simp [zfill]; omega

lemma zfill_id (s : List Char) (h : 3 ≤ s.length) : zfill 3 s = s := by
  simp [zfill, Nat.sub_eq_zero_of_le h]

lemma pyStr_digit_chars (n : Nat) : ∀ c ∈ pyStr n, isDigitCh c = true := by
  by_cases h0 : n = 0
  · subst h0; decide
  · rw [pyStr_eq_digits n (Nat.pos_of_ne_zero h0)]
    intro c hc
    rcases List.mem_map.mp hc with ⟨d, hd, rfl⟩
    exact isDigitCh_digitChar d (Nat.digits_lt_base (by norm_num) (List.mem_reverse.mp hd))

lemma zfill_digit_chars (w : Nat) (s : List Char) (hs : ∀ c ∈ s, isDigitCh c = true) :
    ∀ c ∈ zfill w s, isDigitCh c = true := by
  intro c hc
  rcases List.mem_append.mp hc with h | h
  · rw [List.eq_of_mem_replicate h]; decide
  · exact hs c h

lemma valD_lt (s : List Char) (h : ∀ c ∈ s, isDigitCh c = true) :
    valD s < 10 ^ s.length := by
  induction s with
  | nil => simp [valD]
  | cons c s ih =>
    have hc : charVal c ≤ 9 := by
      have := h c (List.mem_cons_self c s)
      simp [isDigitCh] at this
      simp [charVal]; omega
    have hs : valD s < 10 ^ s.length := ih (fun x hx => h x (List.mem_cons_of_mem c hx))
    rw [valD_cons]
    calc charVal c * 10 ^ s.length + valD s
        ≤ 9 * 10 ^ s.length + valD s := by
          exact Nat.add_le_add_right (Nat.mul_le_mul_right _ hc) _
      _ < 9 * 10 ^ s.length + 10 ^ s.length := Nat.add_lt_add_left hs _
      _ = 10 ^ (s.length + 1) := by rw [pow_succ]; ring
      _ = 10 ^ (c :: s).length := by rw [List.length_cons]

lemma char_lt_of_toNat_lt (a b : Char) (h : a.toNat < b.toNat) : a < b :=
  Char.lt_def.mpr h

lemma char_eq_of_toNat_eq (a b : Char) (h : a.toNat = b.toNat) : a = b :=
  Char.eq_of_val_eq (UInt32.ext h)

lemma lex_append_of_valD_lt :
    ∀ s t u v : List Char, s.length = t.length →
      (∀ c ∈ s, isDigitCh c = true) → (∀ c ∈ t, isDigitCh c = true) →
      valD s < valD t → List.Lex (fun a b : Char => a < b) (s ++ u) (t ++ v) := by
  intro s
  induction s with
  | nil =>
    intro t u v hlen _ _ hval
    have : t = [] := List.eq_nil_of_length_eq_zero hlen.symm
    subst this
    simp [valD] at hval
  | cons c s ih =>
    intro t u v hlen hds hdt hval
    match t with
    | [] => simp at hlen
    | d :: t =>
      have hlen' : s.length = t.length := by simpa using hlen
      have hcd : isDigitCh c = true := hds c (List.mem_cons_self c s)
      have hdd : isDigitCh d = true := hdt d (List.mem_cons_self d t)
      have hc9 : 48 ≤ c.toNat ∧ c.toNat ≤ 57 := by simpa [isDigitCh] using hcd
      have hd9 : 48 ≤ d.toNat ∧ d.toNat ≤ 57 := by simpa [isDigitCh] using hdd
      rcases Nat.lt_trichotomy c.toNat d.toNat with h | h | h
      · exact List.Lex.rel (char_lt_of_toNat_lt c d h)
      · have hcd' : c = d := char_eq_of_toNat_eq c d h
        subst hcd'
        have hvt : valD s < valD t := by
          rw [valD_cons, valD_cons, hlen'] at hval
          omega
        exact List.Lex.cons (ih t u v hlen'
          (fun x hx => hds x (List.mem_cons_of_mem c hx))
          (fun x hx => hdt x (List.mem_cons_of_mem c hx)) hvt)
      · exfalso
        have hvs : charVal d + 1 ≤ charVal c := by simp [charVal]; omega
        have hts : valD t < 10 ^ t.length :=
          valD_lt t (fun x hx => hdt x (List.mem_cons_of_mem d hx))
        rw [valD_cons, valD_cons, hlen'] at hval
        have h1 : (charVal d + 1) * 10 ^ t.length ≤ charVal c * 10 ^ t.length :=
          Nat.mul_le_mul_right _ hvs
        have h2 : charVal d * 10 ^ t.length + 10 ^ t.length = (charVal d + 1) * 10 ^ t.length := by
          ring
        omega

lemma append_cons_same_inj (x : Char) :
    ∀ a₁ a₂ r₁ r₂ : List Char, x ∉ a₁ → x ∉ a₂ →
      a₁ ++ x :: r₁ = a₂ ++ x :: r₂ → a₁ = a₂ ∧ r₁ = r₂ := by
  intro a₁
  induction a₁ with
  | nil =>
    intro a₂ r₁ r₂ _ hx2 h
    match a₂ with
    | [] => simpa using h
    | b :: a₂ =>
      simp only [List.nil_append, List.cons_append, List.cons.injEq] at h
      exact absurd (h.1 ▸ List.mem_cons_self b a₂) hx2
  | cons a a₁ ih =>
    intro a₂ r₁ r₂ hx1 hx2 h
    match a₂ with
    | [] =>
      simp only [List.nil_append, List.cons_append, List.cons.injEq] at h
      exact absurd (h.1.symm ▸ List.mem_cons_self a a₁) hx1
    | b :: a₂ =>
      simp only [List.cons_append, List.cons.injEq] at h
      have := ih a₂ r₁ r₂ (fun hm => hx1 (List.mem_cons_of_mem a hm))
        (fun hm => hx2 (List.mem_cons_of_mem b hm)) h.2
      exact ⟨by rw [h.1, this.1], this.2⟩

lemma padded_no_underscore (n : Nat) : '_' ∉ zfill 3 (pyStr n) := by
  intro hmem
  have := zfill_digit_chars 3 (pyStr n) (pyStr_digit_chars n) '_' hmem
  simp [isDigitCh] at this

lemma valD_padded (n : Nat) : valD (zfill 3 (pyStr n)) = n := by
  rw [valD_zfill, valD_pyStr]

lemma mkFilename_position_inj (i j : Nat) (s₁ e₁ s₂ e₂ : List Char)
    (h : mkFilename i s₁ e₁ = mkFilename j s₂ e₂) : i = j := by
  unfold mkFilename at h
  have hsplit := append_cons_same_inj '_' _ _ _ _
    (padded_no_underscore (i + 1)) (padded_no_underscore (j + 1)) h
  have := congrArg valD hsplit.1
  rw [valD_padded, valD_padded] at this
  omega

/-! ### Paths, filesystem, catalog and the export run -/

/-- The final component of a simple-form POSIX path: the substring after
the last `'/'` (`Path.name`). -/
def pathName (p : List Char) : List Char :=
  (p.reverse.takeWhile (fun c => decide (c ≠ '/'))).reverse

/-- `Path.suffix`: the extension of the final component including its
dot, taken at the last dot when that dot is neither the first nor the
last character of the name; empty otherwise. -/
def pathSuffix (p : List Char) : List Char :=
  let name := pathName p
  let post := name.reverse.takeWhile (fun c => decide (c ≠ '.'))
  if post.length = name.length then []
  else
    let i := name.length - post.length - 1
    if 0 < i ∧ 0 < post.length then name.drop i else []

/-- `Path.stem`: the final component without `pathSuffix`. -/
def pathStem (p : List Char) : List Char :=
  let name := pathName p
  name.take (name.length - (pathSuffix p).length)

/-- A playlist row of the Rekordbox database: its id and name. -/
structure DbPlaylist where
  id : Nat
  name : List Char
deriving DecidableEq

/-- A track row of the Rekordbox database: its source file path. -/
structure DbTrack where
  file_path : List Char
deriving DecidableEq

/-- The external Rekordbox catalog: the playlists, the ordered track ids
of each playlist, and track lookup by id (`get_playlists`,
`get_playlist_entries`, `get_track`). -/
structure Catalog where
  playlists : List DbPlaylist
  playlist_entries : Nat → List Nat
  track : Nat → DbTrack

/-- Content and modification metadata of one file; `shutil.copy2` copies
both wholesale. -/
structure FileData where
  bytes : List Nat
  mtime : Nat
deriving DecidableEq

/-- The filesystem: the existing directories and an association list
from file paths to file data, keys kept unique by `writeFile`. -/
structure FS where
  dirs : List (List Char)
  files : List (List Char × FileData)
deriving DecidableEq

/-- Lookup of a file path in the association list. -/
def findFile (p : List Char) : List (List Char × FileData) → Option FileData
  | [] => none
  | e :: rest => if e.1 = p then some e.2 else findFile p rest

/-- Drop every entry for path `p`. -/
def removeFile (p : List Char) :
    List (List Char × FileData) → List (List Char × FileData)
  | [] => []
  | e :: rest => if e.1 = p then removeFile p rest else e :: removeFile p rest

/-- `Path.exists` for a file path. -/
def hasFile (fs : FS) (p : List Char) : Bool := (findFile p fs.files).isSome

/-- Write (or overwrite) the file at `p`. -/
def writeFile (fs : FS) (p : List Char) (d : FileData) : FS :=
  FS.mk fs.dirs ((p, d) :: removeFile p fs.files)

/-- `shutil.copy2 src dst`: copy content and modification metadata,
overwriting any file at `dst`. -/
def copy2 (fs : FS) (src dst : List Char) : FS :=
  match findFile src fs.files with
  | some d => writeFile fs dst d
  | none => fs

/-- `Path.mkdir` guarded by the existence check, as every call in
`prepare_output_directory` is guarded; directories are modelled as a
flat set of paths, so `parents` on the first call needs no separate
model. -/
def mkdirIfAbsent (fs : FS) (p : List Char) : FS :=
  if p ∈ fs.dirs then fs else FS.mk (p :: fs.dirs) fs.files

/-- The `/` operator of `pathlib` on simple-form paths. -/
def pathJoin (p q : List Char) : List Char := p ++ '/' :: q

def pioneerName : List Char := "PIONEER".data

def contentsName : List Char := "CONTENTS".data

def musicName : List Char := "MUSIC".data

/-- The `MUSIC` directory beneath the output root. -/
def musicDirOf (out : List Char) : List Char := pathJoin out musicName

/-- `Cdj350Battler.prepare_output_directory` (lines 84-103): ensure the
output root, `PIONEER`, `PIONEER/CONTENTS` and `MUSIC` exist, each
created only when absent. -/
def prepare_output_directory (out : List Char) (fs : FS) : FS :=
  let fs1 := mkdirIfAbsent fs out
  let fs2 := mkdirIfAbsent fs1 (pathJoin out pioneerName)
  let fs3 := mkdirIfAbsent fs2 (pathJoin (pathJoin out pioneerName) contentsName)
  mkdirIfAbsent fs3 (musicDirOf out)

/-- The loop of `get_playlist_by_name` (lines 66-72): the first playlist
whose name equals the query, by exact equality. -/
def findPlaylist (name : List Char) : List DbPlaylist → Option DbPlaylist
  | [] => none
  | p :: rest => if p.name = name then some p else findPlaylist name rest

/-- `Cdj350Battler.get_playlist_by_name`. -/
def get_playlist_by_name (cat : Catalog) (name : List Char) : Option DbPlaylist :=
  findPlaylist name cat.playlists

/-- Log lines of one export run, by their structure. -/
inductive Event where
  | notFound : List Char → Event
  | exportStart : List Char → Event
  | fileMissing : List Char → Event
  | copied : List Char → List Char → Event
  | copyFailed : List Char → List Char → Event
  | exportDone : Nat → Event
deriving DecidableEq

/-- Whether a log line is the warning for a missing source file. -/
def isMissingEv : Event → Bool
  | Event.fileMissing _ => true
  | _ => false

/-- The world outside the modelled state: whether the Rekordbox
connection succeeds, and which copies raise an exception. -/
structure Env where
  connectOk : Bool
  copyOk : List Char → List Char → Bool

/-- The destination path of the track at zero-based position `i`
(line 146): `musicDir / mkFilename i stem suffix`. -/
def dstOf (musicDir : List Char) (i : Nat) (t : DbTrack) : List Char :=
  pathJoin musicDir (mkFilename i (pathStem t.file_path) (pathSuffix t.file_path))

/-- One iteration of the export loop (lines 130-153) at zero-based
position `i`: skip with a warning when the source does not exist;
otherwise copy to `musicDir/<mkFilename>`, a copy failure being caught
and logged as an error. -/
def exportTrack (env : Env) (musicDir : List Char) (i : Nat) (t : DbTrack) (fs : FS) :
    FS × List Event :=
  if hasFile fs t.file_path then
    if env.copyOk t.file_path (dstOf musicDir i t) then
      (copy2 fs t.file_path (dstOf musicDir i t), [Event.copied t.file_path (dstOf musicDir i t)])
    else
      (fs, [Event.copyFailed t.file_path (dstOf musicDir i t)])
  else
    (fs, [Event.fileMissing t.file_path])

/-- The export loop over the remaining tracks, from position `i`. -/
def exportTracks (env : Env) (musicDir : List Char) (i : Nat) (ts : List DbTrack) (fs : FS) :
    FS × List Event :=
  match ts with
  | [] => (fs, [])
  | t :: rest =>
    let r1 := exportTrack env musicDir i t fs
    let r2 := exportTracks env musicDir (i + 1) rest r1.1
    (r2.1, r1.2 ++ r2.2)

/-- The ordered tracks of a playlist (lines 124-125). -/
def playlistTracks (cat : Catalog) (pl : DbPlaylist) : List DbTrack :=
  (cat.playlist_entries pl.id).map cat.track

/-- `Cdj350Battler.export_playlist` (lines 105-156): connect (fatal exit
on failure, modelled as `none`), scaffold the output directory, look up
the playlist (report and return when absent), then run the track loop
and log the completion summary with the total track count. -/
def export_playlist (cat : Catalog) (env : Env) (out name : List Char) (fs : FS) :
    Option (FS × List Event) :=
  if env.connectOk then
    let fs1 := prepare_output_directory out fs
    match get_playlist_by_name cat name with
    | none => some (fs1, [Event.notFound name])
    | some pl =>
      let tracks := playlistTracks cat pl
      let r := exportTracks env (musicDirOf out) 0 tracks fs1
      some (r.1, Event.exportStart name :: r.2 ++ [Event.exportDone tracks.length])
  else none

/-- Whether path `p` lies under directory `d`. -/
def isUnder (d p : List Char) : Bool := List.isPrefixOf (d ++ ['/']) p

/-- How many files exist under directory `d`. -/
def dirFileCount (d : List Char) (fs : FS) : Nat :=
  fs.files.countP (fun e => isUnder d e.1)

/-- Invariant of the export loop from position `i`: every file under
`md` was written at an earlier position of this run. -/
def musicInv (md : List Char) (i : Nat) (fs : FS) : Prop :=
  ∀ p, hasFile fs p = true → isUnder md p = true →
    ∃ k, k < i ∧ ∃ st sf, p = pathJoin md (mkFilename k st sf)

/-! ### Concrete inputs for the closed witness and counterexample statements -/

def xOut : List Char := "usb".data

def xName : List Char := "Friday Set".data

def xNameAbsent : List Char := "No Such List".data

def xSrc1 : List Char := "/m/a.mp3".data

def xSrc2 : List Char := "/m/missing.mp3".data

def xDst1 : List Char := "usb/MUSIC/001_a.mp3".data

def xData : FileData := FileData.mk [7] 3

def xFs : FS := FS.mk [] [(xSrc1, xData)]

def xTrack1 : DbTrack := DbTrack.mk xSrc1

def xTrack2 : DbTrack := DbTrack.mk xSrc2

def xPl : DbPlaylist := DbPlaylist.mk 1 xName

def xCat : Catalog := Catalog.mk [xPl]
  (fun i => if i = 1 then [10, 11] else [])
  (fun i => if i = 10 then DbTrack.mk xSrc1 else DbTrack.mk xSrc2)

def xEnv : Env := Env.mk true (fun _ _ => true)

def xEnvFail : Env := Env.mk true (fun _ _ => false)

def xMd : List Char := musicDirOf xOut

def asciiSample : List Char := "Song A".data

def eAcute : Char := 'é'

/-! ### Helper lemmas: filesystem primitives -/

lemma removeFile_of_not_found (p : List Char) :
    ∀ l, findFile p l = none → removeFile p l = l := by
  intro l
  induction l with
  | nil => intro _; rfl
  | cons e rest ih =>
    intro h
    by_cases he : e.1 = p
    · rw [findFile, if_pos he] at h; exact absurd h (by simp)
    · rw [findFile, if_neg he] at h
      rw [removeFile, if_neg he, ih h]

lemma findFile_removeFile_ne (q p : List Char) (h : q ≠ p) :
    ∀ l, findFile q (removeFile p l) = findFile q l := by
  intro l
  induction l with
  | nil => rfl
  | cons e rest ih =>
    by_cases he : e.1 = p
    · have heq : e.1 ≠ q := by rw [he]; exact fun hq => h hq.symm
      rw [removeFile, if_pos he, ih, findFile, if_neg heq]
    · rw [removeFile, if_neg he, findFile, findFile]
      by_cases he2 : e.1 = q
      · rw [if_pos he2, if_pos he2]
      · rw [if_neg he2, if_neg he2, ih]

lemma hasFile_writeFile_ne (fs : FS) (p q : List Char) (d : FileData) (h : q ≠ p) :
    hasFile (writeFile fs p d) q = hasFile fs q := by
  rw [hasFile, hasFile, writeFile]
  show (findFile q ((p, d) :: removeFile p fs.files)).isSome = _
  rw [findFile, if_neg (fun hq : p = q => h hq.symm), findFile_removeFile_ne q p h]

lemma hasFile_false_findFile (fs : FS) (p : List Char) (h : hasFile fs p = false) :
    findFile p fs.files = none := by
  rw [hasFile] at h
  cases hf : findFile p fs.files with
  | none => rfl
  | some d => rw [hf] at h; simp at h

lemma dirFileCount_writeFile_fresh (md : List Char) (fs : FS) (p : List Char) (d : FileData)
    (hp : isUnder md p = true) (hfree : hasFile fs p = false) :
    dirFileCount md (writeFile fs p d) = dirFileCount md fs + 1 := by
  rw [dirFileCount, writeFile]
  show List.countP _ ((p, d) :: removeFile p fs.files) = _
  rw [removeFile_of_not_found p fs.files (hasFile_false_findFile fs p hfree),
    List.countP_cons_of_pos _ _ (by simpa using hp), dirFileCount]

lemma isUnder_pathJoin (d x : List Char) : isUnder d (pathJoin d x) = true := by
  simp only [isUnder, pathJoin, List.isPrefixOf_iff_prefix]
  exact ⟨x, by simp⟩

lemma pathJoin_right_inj (d x y : List Char) (h : pathJoin d x = pathJoin d y) : x = y := by
  have := (List.append_right_inj d).mp h
  simpa using this

lemma ne_of_isUnder_ne (md p q : List Char) (hp : isUnder md p = false)
    (hq : isUnder md q = true) : p ≠ q := by
  intro h
  rw [h, hq] at hp
  exact Bool.noConfusion hp

lemma mkdirIfAbsent_files (fs : FS) (p : List Char) : (mkdirIfAbsent fs p).files = fs.files := by
  unfold mkdirIfAbsent; split <;> rfl

lemma mkdirIfAbsent_mem_self (fs : FS) (p : List Char) : p ∈ (mkdirIfAbsent fs p).dirs := by
  unfold mkdirIfAbsent; split
  · assumption
  · exact List.mem_cons_self p fs.dirs

lemma mkdirIfAbsent_mem_mono (fs : FS) (p q : List Char) (h : q ∈ fs.dirs) :
    q ∈ (mkdirIfAbsent fs p).dirs := by
  unfold mkdirIfAbsent; split
  · exact h
  · exact List.mem_cons_of_mem p h

lemma mkdirIfAbsent_of_mem (fs : FS) (p : List Char) (h : p ∈ fs.dirs) :
    mkdirIfAbsent fs p = fs := by
  unfold mkdirIfAbsent; rw [if_pos h]

lemma prepare_files (out : List Char) (fs : FS) :
    (prepare_output_directory out fs).files = fs.files := by
  unfold prepare_output_directory
  simp only [mkdirIfAbsent_files]

lemma prepare_of_all_mem (out : List Char) (fs : FS)
    (h1 : out ∈ fs.dirs) (h2 : pathJoin out pioneerName ∈ fs.dirs)
    (h3 : pathJoin (pathJoin out pioneerName) contentsName ∈ fs.dirs)
    (h4 : musicDirOf out ∈ fs.dirs) :
    prepare_output_directory out fs = fs := by
  show mkdirIfAbsent (mkdirIfAbsent (mkdirIfAbsent (mkdirIfAbsent fs out)
    (pathJoin out pioneerName)) (pathJoin (pathJoin out pioneerName) contentsName))
    (musicDirOf out) = fs
  rw [mkdirIfAbsent_of_mem fs out h1, mkdirIfAbsent_of_mem fs _ h2,
    mkdirIfAbsent_of_mem fs _ h3, mkdirIfAbsent_of_mem fs _ h4]

/-! ### Helper lemmas: the export loop -/

lemma musicInv_fresh (md : List Char) (i : Nat) (fs : FS) (inv : musicInv md i fs)
    (t : DbTrack) : hasFile fs (dstOf md i t) = false := by
  cases hb : hasFile fs (dstOf md i t) with
  | false => rfl
  | true =>
    obtain ⟨k, hk, st, sf, hpe⟩ := inv _ hb (isUnder_pathJoin md _)
    have := pathJoin_right_inj md _ _ hpe
    have := mkFilename_position_inj i k _ _ st sf this
    omega

lemma musicInv_succ (md : List Char) (i : Nat) (fs : FS) (inv : musicInv md i fs) :
    musicInv md (i + 1) fs := by
  intro p h1 h2
  obtain ⟨k, hk, st, sf, hpe⟩ := inv p h1 h2
  exact ⟨k, by omega, st, sf, hpe⟩

lemma musicInv_write (md : List Char) (i : Nat) (fs : FS) (t : DbTrack) (d : FileData)
    (inv : musicInv md i fs) :
    musicInv md (i + 1) (writeFile fs (dstOf md i t) d) := by
  intro p hp hu
  by_cases hpd : p = dstOf md i t
  · exact ⟨i, Nat.lt_succ_self i, pathStem t.file_path, pathSuffix t.file_path, hpd⟩
  · rw [hasFile_writeFile_ne fs _ p d hpd] at hp
    obtain ⟨k, hk, st, sf, hpe⟩ := inv p hp hu
    exact ⟨k, by omega, st, sf, hpe⟩

lemma exportTracks_counts (env : Env) (md : List Char)
    (hcopy : ∀ s d, env.copyOk s d = true) :
    ∀ (ts : List DbTrack) (i : Nat) (fs : FS),
      (∀ t ∈ ts, isUnder md t.file_path = false) →
      musicInv md i fs →
      dirFileCount md (exportTracks env md i ts fs).1 =
          dirFileCount md fs + ts.countP (fun t => hasFile fs t.file_path) ∧
      (exportTracks env md i ts fs).2.countP isMissingEv =
          ts.countP (fun t => !hasFile fs t.file_path) := by
  intro ts
  induction ts with
  | nil => intro i fs _ _; simp [exportTracks]
  | cons t rest ih =>
    intro i fs hsrc inv
    cases hex : hasFile fs t.file_path with
    | false =>
      have hstep : exportTrack env md i t fs = (fs, [Event.fileMissing t.file_path]) := by
        rw [exportTrack, if_neg (by simp [hex])]
      have ihr := ih (i + 1) fs (fun x hx => hsrc x (List.mem_cons_of_mem t hx))
        (musicInv_succ md i fs inv)
      constructor
      · rw [exportTracks]
        simp only [hstep]
        rw [ihr.1, List.countP_cons, hex]
        simp
      · rw [exportTracks]
        simp only [hstep]
        rw [List.countP_append, ihr.2]
        simp [List.countP_cons, isMissingEv, hex]
        omega
    | true =>
      cases hfd : findFile t.file_path fs.files with
      | none => rw [hasFile, hfd] at hex; simp at hex
      | some d =>
        have hstep : exportTrack env md i t fs =
            (writeFile fs (dstOf md i t) d, [Event.copied t.file_path (dstOf md i t)]) := by
          rw [exportTrack, if_pos (by simp [hex]), if_pos (by simp [hcopy]), copy2, hfd]
        have hfresh : hasFile fs (dstOf md i t) = false := musicInv_fresh md i fs inv t
        have inv1 : musicInv md (i + 1) (writeFile fs (dstOf md i t) d) :=
          musicInv_write md i fs t d inv
        have hpres : ∀ x ∈ rest,
            hasFile (writeFile fs (dstOf md i t) d) x.file_path = hasFile fs x.file_path := by
          intro x hx
          exact hasFile_writeFile_ne fs _ _ d
            (ne_of_isUnder_ne md _ _ (hsrc x (List.mem_cons_of_mem t hx))
              (isUnder_pathJoin md _))
        have ihr := ih (i + 1) (writeFile fs (dstOf md i t) d)
          (fun x hx => hsrc x (List.mem_cons_of_mem t hx)) inv1
        have hcnt1 : (rest.countP fun x =>
            hasFile (writeFile fs (dstOf md i t) d) x.file_path) =
            rest.countP fun x => hasFile fs x.file_path :=
          List.countP_congr (fun x hx => by rw [hpres x hx])
        have hcnt2 : (rest.countP fun x =>
            !hasFile (writeFile fs (dstOf md i t) d) x.file_path) =
            rest.countP fun x => !hasFile fs x.file_path :=
          List.countP_congr (fun x hx => by rw [hpres x hx])
        have hwc : dirFileCount md (writeFile fs (dstOf md i t) d) = dirFileCount md fs + 1 :=
          dirFileCount_writeFile_fresh md fs (dstOf md i t) d
            (by rw [dstOf]; exact isUnder_pathJoin md _) hfresh
        constructor
        · rw [exportTracks]
          simp only [hstep]
          rw [ihr.1, hcnt1, hwc, List.countP_cons, hex]
          simp
          omega
        · rw [exportTracks]
          simp only [hstep]
          rw [List.countP_append, ihr.2, hcnt2]
          simp [List.countP_cons, isMissingEv, hex]

lemma findPlaylist_spec (n : List Char) : ∀ l : List DbPlaylist,
    (match findPlaylist n l with
     | some p => p.name = n ∧ ∃ l₁ l₂, l = l₁ ++ p :: l₂ ∧ ∀ q ∈ l₁, q.name ≠ n
     | none => ∀ p ∈ l, p.name ≠ n) := by
  intro l
  induction l with
  | nil => simp [findPlaylist]
  | cons a l ih =>
    by_cases ha : a.name = n
    · rw [findPlaylist, if_pos ha]
      exact ⟨ha, [], l, rfl, by simp⟩
    · rw [findPlaylist, if_neg ha]
      cases hf : findPlaylist n l with
      | none =>
        rw [hf] at ih
        intro p hp
        rcases List.mem_cons.mp hp with rfl | hp2
        · exact ha
        · exact ih p hp2
      | some p =>
        rw [hf] at ih
        obtain ⟨hpn, l₁, l₂, hsplit, hl₁⟩ := ih
        refine ⟨hpn, a :: l₁, l₂, by rw [hsplit]; rfl, ?_⟩
        intro q hq
        rcases List.mem_cons.mp hq with rfl | hq2
        · exact ha
        · exact hl₁ q hq2

/-! ### Helper lemmas: sanitization, lookup, counting -/

lemma replaceSpace_toNat_lt (c : Char) (h : c.toNat < 128) : (replaceSpace c).toNat < 128 := by
  rw [replaceSpace]
  split
  · decide
  · exact h

lemma sanitizeChar_ascii (c : Char) (h : c.toNat < 128) : allowedChar (sanitizeChar c) = true := by
  rw [sanitizeChar]
  split
  · next hcond =>
    simp only [Bool.or_eq_true, decide_eq_true_eq] at hcond
    simp only [allowedChar, decide_eq_true_eq]
    rcases hcond with ((hpy | h1) | h2) | h3
    · simp only [pyIsAlnum, decide_eq_true_eq] at hpy
      omega
    · subst h1; decide
    · subst h2; decide
    · subst h3; decide
  · decide

lemma findFile_some_mem (p : List Char) :
    ∀ l d, findFile p l = some d → (p, d) ∈ l := by
  intro l
  induction l with
  | nil => intro d h; exact absurd h (by simp [findFile])
  | cons e rest ih =>
    intro d h
    by_cases he : e.1 = p
    · rw [findFile, if_pos he] at h
      obtain ⟨a, b⟩ := e
      subst he
      rw [Option.some.injEq] at h
      subst h
      exact List.mem_cons_self _ _
    · rw [findFile, if_neg he] at h
      exact List.mem_cons_of_mem e (ih d h)

lemma hasFile_false_of_dirFileCount_zero (md : List Char) (fs : FS) (p : List Char)
    (h0 : dirFileCount md fs = 0) (hu : isUnder md p = true) : hasFile fs p = false := by
  cases hb : hasFile fs p with
  | false => rfl
  | true =>
    exfalso
    rw [hasFile] at hb
    cases hf : findFile p fs.files with
    | none => rw [hf] at hb; simp at hb
    | some d =>
      have hmem := findFile_some_mem p fs.files d hf
      have := List.countP_eq_zero.mp h0 (p, d) hmem
      simp [hu] at this

lemma length_eq_countP_add_countP_not (p : DbTrack → Bool) (l : List DbTrack) :
    l.length = l.countP p + l.countP (fun a => !p a) := by
  rw [List.length_eq_countP_add_countP p l]
  congr 1
  exact List.countP_congr (by intro x hx; cases p x <;> simp)

/-! ### The claims -/

/-- C1, counterexample: the spec claims every `to_romaji` output lies
in `[A-Za-z0-9_.-]`, but the sanitization keeps every character that
Python classifies as alphanumeric, and `é` — passed through unchanged
by kakasi as Latin script — is such a character, so `to_romaji "é" =
"é"` escapes the class. -/
theorem to_romaji_nonascii_escapes :
    to_romaji [eAcute] = [eAcute] ∧ allowedChar eAcute = false ∧
    ¬ ∀ c ∈ to_romaji [eAcute], allowedChar c = true := by decide

/-- C1 (amended): whenever the romanized text is ASCII — in particular
for every all-ASCII or all-Japanese input — the sanitization pass
guarantees that the output of `to_romaji` contains only characters of
`[A-Za-z0-9_.-]`. -/
theorem to_romaji_ascii_allowed (s : List Char)
    (h : ∀ c ∈ kakasiConvert s, c.toNat < 128) :
    ∀ c ∈ to_romaji s, allowedChar c = true := by
  intro c hc
  rw [to_romaji] at hc
  rcases List.mem_map.mp hc with ⟨c1, hc1, rfl⟩
  rcases List.mem_map.mp hc1 with ⟨c0, hc0, rfl⟩
  exact sanitizeChar_ascii _ (replaceSpace_toNat_lt c0 (h c0 hc0))

theorem to_romaji_ascii_allowed_witness :
    (∀ c ∈ kakasiConvert asciiSample, c.toNat < 128) ∧
    (∀ c ∈ to_romaji asciiSample, allowedChar c = true) :=
  ⟨by decide, to_romaji_ascii_allowed asciiSample (by decide)⟩

/-- C3: for positions `i < j ≤ 998`, for any stems and extensions, the
filename generated for position `i` sorts lexicographically before the
one generated for position `j`: both three-digit zero-padded prefixes
have width exactly 3 and compare like the numbers they denote. -/
theorem mkFilename_lex_lt (i j : Nat) (s₁ e₁ s₂ e₂ : List Char)
    (hij : i < j) (hj : j ≤ 998) :
    List.Lex (fun a b : Char => a < b) (mkFilename i s₁ e₁) (mkFilename j s₂ e₂) := by
  unfold mkFilename
  exact lex_append_of_valD_lt _ _ _ _
    (by rw [zfill_length _ (pyStr_length_le _ (by omega)),
      zfill_length _ (pyStr_length_le _ (by omega))])
    (zfill_digit_chars _ _ (pyStr_digit_chars _))
    (zfill_digit_chars _ _ (pyStr_digit_chars _))
    (by rw [valD_padded, valD_padded]; omega)

theorem mkFilename_lex_lt_witness :
    0 < 1 ∧ 1 ≤ 998 ∧
    List.Lex (fun a b : Char => a < b) (mkFilename 0 ['b'] []) (mkFilename 1 ['a'] []) :=
  ⟨by decide, by decide, mkFilename_lex_lt 0 1 ['b'] [] ['a'] [] (by decide) (by decide)⟩

/-- C4: the generated filename is exactly
`zfill 3 (str (position+1)) ++ "_" ++ to_romaji stem ++ extension`, the
extension passed through unmodified with no sanitization; the numeric
field has width exactly 3 through position 998 and, from `position + 1
≥ 1000` on, simply widens with no truncation and no error. -/
theorem mkFilename_shape (p : Nat) (stem ext : List Char) :
    mkFilename p stem ext = zfill 3 (pyStr (p + 1)) ++ '_' :: (to_romaji stem ++ ext) ∧
    (p + 1 ≤ 999 → (zfill 3 (pyStr (p + 1))).length = 3) ∧
    (1000 ≤ p + 1 → zfill 3 (pyStr (p + 1)) = pyStr (p + 1)) := by
  refine ⟨rfl, fun h => zfill_length _ (pyStr_length_le _ (by omega)), fun h => ?_⟩
  have := pyStr_length_ge_of_ge (p + 1) h
  exact zfill_id _ (by omega)

/-- C5: tracks at distinct positions receive distinct destination
filenames, for every combination of stems and extensions — identical
stems included — and also at positions 999 and above where the numeric
field widens: the digit prefix before the first underscore recovers the
position. -/
theorem mkFilename_distinct (i j : Nat) (s₁ e₁ s₂ e₂ : List Char) (hij : i ≠ j) :
    mkFilename i s₁ e₁ ≠ mkFilename j s₂ e₂ :=
  fun h => hij (mkFilename_position_inj i j s₁ e₁ s₂ e₂ h)

theorem mkFilename_distinct_witness :
    (998 : Nat) ≠ 999 ∧ mkFilename 998 ['a'] [] ≠ mkFilename 999 ['a'] [] :=
  ⟨by decide, mkFilename_distinct 998 999 ['a'] [] ['a'] [] (by decide)⟩

/-- C6: a track whose source path does not exist is recorded as skipped
with a warning, the filesystem is left unchanged — no file is created
at any destination for that track — and the loop continues with the
remaining tracks in playlist order. -/
theorem exportTrack_missing_skips (env : Env) (md : List Char) (i : Nat)
    (t : DbTrack) (rest : List DbTrack) (fs : FS)
    (h : hasFile fs t.file_path = false) :
    exportTrack env md i t fs = (fs, [Event.fileMissing t.file_path]) ∧
    exportTracks env md i (t :: rest) fs =
      ((exportTracks env md (i + 1) rest fs).1,
        Event.fileMissing t.file_path :: (exportTracks env md (i + 1) rest fs).2) := by
  have hstep : exportTrack env md i t fs = (fs, [Event.fileMissing t.file_path]) := by
    rw [exportTrack, if_neg (by simp [h])]
  refine ⟨hstep, ?_⟩
  rw [exportTracks]
  simp only [hstep, List.singleton_append]

theorem exportTrack_missing_skips_witness :
    hasFile xFs xSrc2 = false ∧
    (exportTrack xEnv xMd 1 xTrack2 xFs = (xFs, [Event.fileMissing xTrack2.file_path]) ∧
      exportTracks xEnv xMd 1 (xTrack2 :: [xTrack1]) xFs =
        ((exportTracks xEnv xMd 2 [xTrack1] xFs).1,
          Event.fileMissing xTrack2.file_path :: (exportTracks xEnv xMd 2 [xTrack1] xFs).2)) :=
  ⟨by decide, exportTrack_missing_skips xEnv xMd 1 xTrack2 [xTrack1] xFs (by decide)⟩

/-- C7: a failing copy is caught and logged as an error, the filesystem
is left as it was, and the loop continues with the remaining tracks —
no single track's copy failure aborts the run. -/
theorem exportTrack_copy_failure_continues (env : Env) (md : List Char) (i : Nat)
    (t : DbTrack) (rest : List DbTrack) (fs : FS)
    (hex : hasFile fs t.file_path = true)
    (hfail : env.copyOk t.file_path (dstOf md i t) = false) :
    exportTrack env md i t fs = (fs, [Event.copyFailed t.file_path (dstOf md i t)]) ∧
    exportTracks env md i (t :: rest) fs =
      ((exportTracks env md (i + 1) rest fs).1,
        Event.copyFailed t.file_path (dstOf md i t) ::
          (exportTracks env md (i + 1) rest fs).2) := by
  have hstep : exportTrack env md i t fs =
      (fs, [Event.copyFailed t.file_path (dstOf md i t)]) := by
    rw [exportTrack, if_pos (by simp [hex]), if_neg (by simp [hfail])]
  refine ⟨hstep, ?_⟩
  rw [exportTracks]
  simp only [hstep, List.singleton_append]

theorem exportTrack_copy_failure_continues_witness :
    hasFile xFs xSrc1 = true ∧
    xEnvFail.copyOk xSrc1 (dstOf xMd 0 xTrack1) = false ∧
    (exportTrack xEnvFail xMd 0 xTrack1 xFs =
        (xFs, [Event.copyFailed xTrack1.file_path (dstOf xMd 0 xTrack1)]) ∧
      exportTracks xEnvFail xMd 0 (xTrack1 :: [xTrack2]) xFs =
        ((exportTracks xEnvFail xMd 1 [xTrack2] xFs).1,
          Event.copyFailed xTrack1.file_path (dstOf xMd 0 xTrack1) ::
            (exportTracks xEnvFail xMd 1 [xTrack2] xFs).2)) :=
  ⟨by decide, rfl,
    exportTrack_copy_failure_continues xEnvFail xMd 0 xTrack1 [xTrack2] xFs (by decide) rfl⟩

/-- C8: export with a playlist name matching no playlist in the catalog
reports the not-found condition and returns normally (`some`, not the
fatal `none` of a connection failure); the filesystem receives only the
idempotent directory scaffolding — its files are untouched, so nothing
is copied into `MUSIC`. -/
theorem export_playlist_not_found (cat : Catalog) (env : Env) (out name : List Char) (fs : FS)
    (hconn : env.connectOk = true)
    (hnf : get_playlist_by_name cat name = none) :
    export_playlist cat env out name fs =
      some (prepare_output_directory out fs, [Event.notFound name]) ∧
    (prepare_output_directory out fs).files = fs.files := by
  constructor
  · simp [export_playlist, hconn, hnf]
  · exact prepare_files out fs

theorem export_playlist_not_found_witness :
    xEnv.connectOk = true ∧
    get_playlist_by_name xCat xNameAbsent = none ∧
    (export_playlist xCat xEnv xOut xNameAbsent xFs =
        some (prepare_output_directory xOut xFs, [Event.notFound xNameAbsent]) ∧
      (prepare_output_directory xOut xFs).files = xFs.files) :=
  ⟨rfl, by decide, export_playlist_not_found xCat xEnv xOut xNameAbsent xFs rfl (by decide)⟩

/-- C9: directory scaffolding is idempotent: after
`prepare_output_directory`, the output root, `PIONEER`,
`PIONEER/CONTENTS` and `MUSIC` all exist; the filesystem's files are
untouched; every pre-existing directory is still present; and running
the preparation a second time changes nothing. -/
theorem prepare_output_directory_idempotent (out : List Char) (fs : FS) :
    out ∈ (prepare_output_directory out fs).dirs ∧
    pathJoin out pioneerName ∈ (prepare_output_directory out fs).dirs ∧
    pathJoin (pathJoin out pioneerName) contentsName ∈
      (prepare_output_directory out fs).dirs ∧
    musicDirOf out ∈ (prepare_output_directory out fs).dirs ∧
    (prepare_output_directory out fs).files = fs.files ∧
    (∀ d ∈ fs.dirs, d ∈ (prepare_output_directory out fs).dirs) ∧
    prepare_output_directory out (prepare_output_directory out fs) =
      prepare_output_directory out fs := by
  have h1 : out ∈ (prepare_output_directory out fs).dirs :=
    mkdirIfAbsent_mem_mono _ _ _ (mkdirIfAbsent_mem_mono _ _ _
      (mkdirIfAbsent_mem_mono _ _ _ (mkdirIfAbsent_mem_self fs out)))
  have h2 : pathJoin out pioneerName ∈ (prepare_output_directory out fs).dirs :=
    mkdirIfAbsent_mem_mono _ _ _ (mkdirIfAbsent_mem_mono _ _ _
      (mkdirIfAbsent_mem_self _ _))
  have h3 : pathJoin (pathJoin out pioneerName) contentsName ∈
      (prepare_output_directory out fs).dirs :=
    mkdirIfAbsent_mem_mono _ _ _ (mkdirIfAbsent_mem_self _ _)
  have h4 : musicDirOf out ∈ (prepare_output_directory out fs).dirs :=
    mkdirIfAbsent_mem_self _ _
  refine ⟨h1, h2, h3, h4, prepare_files out fs, ?_, ?_⟩
  · intro d hd
    exact mkdirIfAbsent_mem_mono _ _ _ (mkdirIfAbsent_mem_mono _ _ _
      (mkdirIfAbsent_mem_mono _ _ _ (mkdirIfAbsent_mem_mono _ _ _ hd)))
  · exact prepare_of_all_mem out _ h1 h2 h3 h4

/-- C10: playlist lookup compares names by exact, case-sensitive
equality; when it returns a playlist, that playlist bears the queried
name and is the first such playlist in catalog enumeration order; it
returns `none` exactly when no playlist bears the queried name. -/
theorem get_playlist_by_name_first_match (cat : Catalog) (n : List Char) :
    (match get_playlist_by_name cat n with
     | some p => p.name = n ∧ ∃ l₁ l₂, cat.playlists = l₁ ++ p :: l₂ ∧ ∀ q ∈ l₁, q.name ≠ n
     | none => ∀ p ∈ cat.playlists, p.name ≠ n) :=
  findPlaylist_spec n cat.playlists

/-- C2, counterexample: the spec claims one run's summary reports
exactly `N − M` successful copies and `M` skips.  In a concrete run
with `N = 2` tracks of which `M = 1` has a missing source, the code's
completion summary is `exportDone 2` — the total track count — and the
log carries no event reporting the value `N − M = 1`. -/
theorem export_summary_reports_total :
    playlistTracks xCat xPl = [xTrack1, xTrack2] ∧
    (playlistTracks xCat xPl).countP (fun t => !hasFile xFs t.file_path) = 1 ∧
    (export_playlist xCat xEnv xOut xName xFs).map Prod.snd =
      some [Event.exportStart xName, Event.copied xSrc1 xDst1,
        Event.fileMissing xSrc2, Event.exportDone 2] ∧
    Event.exportDone 1 ∉ [Event.exportStart xName, Event.copied xSrc1 xDst1,
      Event.fileMissing xSrc2, Event.exportDone 2] := by decide

/-- C2 (amended): for a run whose connection succeeds, whose playlist
resolves, with every copy succeeding, no source path under `MUSIC` and
the `MUSIC` directory initially empty of files: the log is
`exportStart`, the per-track events, then the completion summary
`exportDone N` reporting the total track count `N`; the per-track
events contain exactly `M` missing-file warnings, `M` counting the
tracks whose source does not exist; and exactly `N − M` files exist
under `MUSIC` afterwards. -/
theorem export_playlist_counts (cat : Catalog) (env : Env) (out name : List Char)
    (pl : DbPlaylist) (fs : FS)
    (hconn : env.connectOk = true)
    (hpl : get_playlist_by_name cat name = some pl)
    (hcopy : ∀ s d, env.copyOk s d = true)
    (hmusic : dirFileCount (musicDirOf out) fs = 0)
    (hsrc : ∀ t ∈ playlistTracks cat pl, isUnder (musicDirOf out) t.file_path = false) :
    ∃ fs2 evs,
      export_playlist cat env out name fs =
        some (fs2, Event.exportStart name :: evs ++
          [Event.exportDone (playlistTracks cat pl).length]) ∧
      evs.countP isMissingEv =
        (playlistTracks cat pl).countP (fun t => !hasFile fs t.file_path) ∧
      dirFileCount (musicDirOf out) fs2 =
        (playlistTracks cat pl).length -
          (playlistTracks cat pl).countP (fun t => !hasFile fs t.file_path) := by
  have hfiles : (prepare_output_directory out fs).files = fs.files := prepare_files out fs
  have hHas : ∀ p, hasFile (prepare_output_directory out fs) p = hasFile fs p := by
    intro p; rw [hasFile, hasFile, hfiles]
  have hCount0 : dirFileCount (musicDirOf out) (prepare_output_directory out fs) = 0 := by
    rw [dirFileCount, hfiles]; exact hmusic
  have hinv : musicInv (musicDirOf out) 0 (prepare_output_directory out fs) := by
    intro p hp hu
    have := hasFile_false_of_dirFileCount_zero _ _ p hCount0 hu
    rw [this] at hp
    exact absurd hp (by simp)
  have hloop := exportTracks_counts env (musicDirOf out) hcopy (playlistTracks cat pl) 0
    (prepare_output_directory out fs) hsrc hinv
  have hc1 : ((playlistTracks cat pl).countP fun t =>
      hasFile (prepare_output_directory out fs) t.file_path) =
      (playlistTracks cat pl).countP fun t => hasFile fs t.file_path :=
    List.countP_congr (by intro x hx; rw [hHas])
  have hc2 : ((playlistTracks cat pl).countP fun t =>
      !hasFile (prepare_output_directory out fs) t.file_path) =
      (playlistTracks cat pl).countP fun t => !hasFile fs t.file_path :=
    List.countP_congr (by intro x hx; rw [hHas])
  refine ⟨(exportTracks env (musicDirOf out) 0 (playlistTracks cat pl)
      (prepare_output_directory out fs)).1,
    (exportTracks env (musicDirOf out) 0 (playlistTracks cat pl)
      (prepare_output_directory out fs)).2, ?_, ?_, ?_⟩
  · simp [export_playlist, hconn, hpl]
  · rw [hloop.2, hc2]
  · rw [hloop.1, hc1, hCount0]
    have hlen := length_eq_countP_add_countP_not
      (fun t => hasFile fs t.file_path) (playlistTracks cat pl)
    omega

theorem export_playlist_counts_witness :
    xEnv.connectOk = true ∧
    get_playlist_by_name xCat xName = some xPl ∧
    dirFileCount (musicDirOf xOut) xFs = 0 ∧
    (∀ t ∈ playlistTracks xCat xPl, isUnder (musicDirOf xOut) t.file_path = false) ∧
    (∃ fs2 evs,
      export_playlist xCat xEnv xOut xName xFs =
        some (fs2, Event.exportStart xName :: evs ++
          [Event.exportDone (playlistTracks xCat xPl).length]) ∧
      evs.countP isMissingEv =
        (playlistTracks xCat xPl).countP (fun t => !hasFile xFs t.file_path) ∧
      dirFileCount (musicDirOf xOut) fs2 =
        (playlistTracks xCat xPl).length -
          (playlistTracks xCat xPl).countP (fun t => !hasFile xFs t.file_path)) :=
  ⟨rfl, by decide, by decide, by decide,
    export_playlist_counts xCat xEnv xOut xName xPl xFs rfl (by decide)
      (fun _ _ => rfl) (by decide) (by decide)⟩

end Battler
